import Mathlib

/-!
Shallow embedding of the `pico-args` argument parser (`src/lib.rs`).

Modelling conventions:
* An `OsString` token is either valid UTF-8 text (`Token.text`, content as a
  list of characters) or opaque non-UTF-8 data (`Token.raw`, identified by a
  number; the parser never inspects raw bytes beyond "is it valid text").
* `Arguments` (a `Vec<OsString>`) is a `List Token`; `Vec::remove(idx)` is
  `List.eraseIdx`.
* Rust methods that mutate `self` and return `Result<A, Error>` become
  functions `List Token → Except Error A × List Token` returning the result
  together with the new store.
* A caller-supplied decoder `fn(&str) -> Result<T, E>` (with `E: Display`,
  stringified by `error_to_string`) becomes `List Char → Except (List Char) T`:
  the error side is already its display string.
* The `eq-separator` build feature is enabled (the crate default), so
  `find_value` is the version with the inline `--key=value` branch.
-/

deriving instance DecidableEq for Except

namespace PicoArgs

/-- Shorthand turning a string literal into the character-list representation
used for token text. -/
def S (s : String) : List Char := s.toList

/-- One command-line token: valid UTF-8 text, or opaque non-UTF-8 data
(`OsString` whose `to_str()` is `None`). -/
inductive Token where
  | text (s : List Char) : Token
  | raw (id : Nat) : Token
deriving DecidableEq, Repr

/-- The key container `Keys([&'static str; 2])`: a primary and a secondary
alias, the secondary being empty for the single-alias form. -/
structure Keys where
  first : List Char
  second : List Char
deriving DecidableEq, Repr

/-- The `Error` enum of `lib.rs`. -/
inductive Error where
  | nonUtf8Argument : Error
  | missingOption (keys : Keys) : Error
  | optionWithoutAValue (key : List Char) : Error
  | utf8ArgumentParsingFailed (value cause : List Char) : Error
  | argumentParsingFailed (cause : List Char) : Error
  | unusedArgsLeft (args : List (List Char)) : Error
deriving DecidableEq, Repr

/-- The `PairKind` enum: inline `--key=value` vs. `--key value`. -/
inductive PairKind where
  | singleArgument : PairKind
  | twoArguments : PairKind
deriving DecidableEq, Repr

/-- `OsString == &str` comparison (`v == key` in `index_of`): a token equals a
key string iff it is text with exactly that content. -/
def Token.eqStr : Token → List Char → Bool
  | .text s, k => s == k
  | .raw _, _ => false

/-- `Iterator::position`: index of the first element satisfying `p`. -/
def position (p : α → Bool) : List α → Option Nat
  | [] => none
  | x :: xs => if p x then some 0 else (position p xs).map (· + 1)

/-- The alias loop shared by `index_of` and `index_of2` (the source writes it
as a `for` loop in the former and unrolls it in the latter, with identical
semantics): try each key in order, skipping empty ones, and return the index
of the first token matching the key under `p`. -/
def key_search (p : List Char → Token → Bool) (store : List Token) :
    List (List Char) → Option (Nat × List Char)
  | [] => none
  | k :: ks =>
    if k.isEmpty then key_search p store ks
    else
      match position (p k) store with
      | some i => some (i, k)
      | none => key_search p store ks

/-- `Arguments::index_of`: first exact-token match of either alias,
primary alias scanned over the whole store before the secondary. -/
def index_of (store : List Token) (keys : Keys) : Option (Nat × List Char) :=
  key_search (fun k v => v.eqStr k) store [keys.first, keys.second]

/-- `starts_with_plus_eq`: token is text beginning with `pre` immediately
followed by `=`. -/
def starts_with_plus_eq (t : Token) (pre : List Char) : Bool :=
  match t with
  | .text s => s.take pre.length == pre && s.get? pre.length == some '='
  | .raw _ => false

/-- `Arguments::index_of2`: first token matching `key=` for the primary alias,
else for the secondary alias. -/
def index_of2 (store : List Token) (keys : Keys) : Option (Nat × List Char) :=
  key_search (fun k v => starts_with_plus_eq v k) store [keys.first, keys.second]

/-- `ends_with(text, c)`: last byte of a non-empty string equals `c`. -/
def ends_with (text : List Char) (c : Char) : Bool :=
  if text.isEmpty then false else text.getLast? == some c

/-- `os_to_str`: text content, or `NonUtf8Argument`. -/
def os_to_str : Token → Except Error (List Char)
  | .text s => .ok s
  | .raw _ => .error .nonUtf8Argument

/-- The inline-value extraction of `find_value` (the `index_of2` branch):
given the matched token text and the matched key, mirror the `value_range`
arithmetic, quote stripping and emptiness checks of `lib.rs`. -/
def inline_value (s : List Char) (key : List Char) : Except Error (List Char) :=
  if s.get? key.length == some '=' then
    let start := key.length + 1
    match s.get? start with
    | some c =>
      if c == '"' || c == '\'' then
        if ends_with (s.drop (start + 1)) c then
          let value := (s.drop (start + 1)).take (s.length - 1 - (start + 1))
          if (s.length - 1) - (start + 1) == 0 then .error (.optionWithoutAValue key)
          else if value.isEmpty then .error (.optionWithoutAValue key)
          else .ok value
        else .error (.optionWithoutAValue key)
      else
        let value := (s.drop start).take (s.length - start)
        if s.length - start == 0 then .error (.optionWithoutAValue key)
        else if value.isEmpty then .error (.optionWithoutAValue key)
        else .ok value
    | none => .error (.optionWithoutAValue key)
  else .error (.optionWithoutAValue key)

/-- `Arguments::find_value` (with the `eq-separator` feature): the two-token
form via `index_of` first, then the inline `=` form via `index_of2`. -/
def find_value (store : List Token) (keys : Keys) :
    Except Error (Option (List Char × PairKind × Nat)) :=
  match index_of store keys with
  | some (idx, key) =>
    match store.get? (idx + 1) with
    | none => .error (.optionWithoutAValue key)
    | some v =>
      match os_to_str v with
      | .ok value => .ok (some (value, .twoArguments, idx))
      | .error e => .error e
  | none =>
    match index_of2 store keys with
    | some (idx, key) =>
      match store.get? idx with
      | some (.text s) =>
        match inline_value s key with
        | .ok value => .ok (some (value, .singleArgument, idx))
        | .error e => .error e
      | some (.raw _) => .error .nonUtf8Argument
      -- unreachable: `index_of2` only returns indices inside the store
      | none => .ok none
    | none => .ok none

/-- `Arguments::opt_value_from_fn_impl`: decode the found value; on success
remove the matched token(s), on failure leave the store untouched. -/
def opt_value_from_fn (store : List Token) (keys : Keys)
    (f : List Char → Except (List Char) T) :
    Except Error (Option T) × List Token :=
  match find_value store keys with
  | .error e => (.error e, store)
  | .ok none => (.ok none, store)
  | .ok (some (value, kind, idx)) =>
    match f value with
    | .ok v =>
      match kind with
      | .twoArguments => (.ok (some v), (store.eraseIdx idx).eraseIdx idx)
      | .singleArgument => (.ok (some v), store.eraseIdx idx)
    | .error e => (.error (.utf8ArgumentParsingFailed value e), store)

/-- `Arguments::value_from_fn`: the required-option wrapper. -/
def value_from_fn (store : List Token) (keys : Keys)
    (f : List Char → Except (List Char) T) :
    Except Error T × List Token :=
  match opt_value_from_fn store keys f with
  | (.ok (some v), st) => (.ok v, st)
  | (.ok none, st) => (.error (.missingOption keys), st)
  | (.error e, st) => (.error e, st)

/-- `Arguments::contains_impl`: remove the first token equal to either alias. -/
def contains_impl (store : List Token) (keys : Keys) : Bool × List Token :=
  match index_of store keys with
  | some (idx, _) => (true, store.eraseIdx idx)
  | none => (false, store)

/-- The `loop` of `Arguments::values_from_fn`, with an explicit fuel bound.
Each `Ok(Some(_))` iteration of the source loop strictly shrinks the store, so
with fuel `store.length + 1` the fuel is never exhausted (proved below);
the fuel-zero fallback is therefore never taken. -/
def values_loop (keys : Keys) (f : List Char → Except (List Char) T) :
    Nat → List Token → List T → Except Error (List T) × List Token
  | 0, store, acc => (.ok acc, store)
  | fuel + 1, store, acc =>
    match opt_value_from_fn store keys f with
    | (.ok (some v), store') => values_loop keys f fuel store' (acc ++ [v])
    | (.ok none, store') => (.ok acc, store')
    | (.error e, store') => (.error e, store')

/-- `Arguments::values_from_fn`: collect repeated occurrences of the option. -/
def values_from_fn (store : List Token) (keys : Keys)
    (f : List Char → Except (List Char) T) :
    Except Error (List T) × List Token :=
  values_loop keys f (store.length + 1) store []

/-- `Arguments::opt_value_from_os_str_impl`: two-token form only, decoder gets
the raw token. -/
def opt_value_from_os_str (store : List Token) (keys : Keys)
    (f : Token → Except (List Char) T) :
    Except Error (Option T) × List Token :=
  match index_of store keys with
  | some (idx, key) =>
    match store.get? (idx + 1) with
    | none => (.error (.optionWithoutAValue key), store)
    | some v =>
      match f v with
      | .ok value => (.ok (some value), (store.eraseIdx idx).eraseIdx idx)
      | .error e => (.error (.argumentParsingFailed e), store)
  | none => (.ok none, store)

/-- The loop of `Arguments::values_from_os_str`, with fuel as in
`values_loop`. -/
def values_os_loop (keys : Keys) (f : Token → Except (List Char) T) :
    Nat → List Token → List T → Except Error (List T) × List Token
  | 0, store, acc => (.ok acc, store)
  | fuel + 1, store, acc =>
    match opt_value_from_os_str store keys f with
    | (.ok (some v), store') => values_os_loop keys f fuel store' (acc ++ [v])
    | (.ok none, store') => (.ok acc, store')
    | (.error e, store') => (.error e, store')

/-- `Arguments::values_from_os_str`. -/
def values_from_os_str (store : List Token) (keys : Keys)
    (f : Token → Except (List Char) T) :
    Except Error (List T) × List Token :=
  values_os_loop keys f (store.length + 1) store []

/-- `s.starts_with('-')`. -/
def starts_with_dash : List Char → Bool
  | [] => false
  | c :: _ => c == '-'

/-- The collection loop of `check_for_flags`: every text token that starts
with a dash and is not exactly `-`, in store order. -/
def flags_left : List Token → List (List Char)
  | [] => []
  | .text s :: rest =>
    if starts_with_dash s && s != ['-'] then s :: flags_left rest
    else flags_left rest
  | .raw _ :: rest => flags_left rest

/-- `Arguments::check_for_flags`. -/
def check_for_flags (store : List Token) : Except Error Unit :=
  if (flags_left store).isEmpty then .ok ()
  else .error (.unusedArgsLeft (flags_left store))

/-- `Arguments::free_from_fn`: flag-residue check, then take the first token.
The first token is removed from the store before UTF-8 validation and before
the decoder runs, so it stays removed on both kinds of failure. -/
def free_from_fn (store : List Token) (f : List Char → Except (List Char) T) :
    Except Error (Option T) × List Token :=
  match check_for_flags store with
  | .error e => (.error e, store)
  | .ok _ =>
    match store with
    | [] => (.ok none, store)
    | v :: rest =>
      match os_to_str v with
      | .error e => (.error e, rest)
      | .ok s =>
        match f s with
        | .ok value => (.ok (some value), rest)
        | .error e => (.error (.utf8ArgumentParsingFailed s e), rest)

/-- `Arguments::free_from_os_str`. -/
def free_from_os_str (store : List Token) (f : Token → Except (List Char) T) :
    Except Error (Option T) × List Token :=
  match check_for_flags store with
  | .error e => (.error e, store)
  | .ok _ =>
    match store with
    | [] => (.ok none, store)
    | v :: rest =>
      match f v with
      | .ok value => (.ok (some value), rest)
      | .error e => (.error (.argumentParsingFailed e), rest)

/-- The validation pass of `Arguments::free`: first non-text token wins as
`NonUtf8Argument`, otherwise all token texts in order. -/
def free_strings : List Token → Except Error (List (List Char))
  | [] => .ok []
  | t :: rest =>
    match os_to_str t with
    | .error e => .error e
    | .ok s => (free_strings rest).map (fun l => s :: l)

/-- `Arguments::free` (consumes the store). -/
def free (store : List Token) : Except Error (List (List Char)) :=
  match check_for_flags store with
  | .error e => .error e
  | .ok _ => free_strings store

/-- `Arguments::free_os` (consumes the store). -/
def free_os (store : List Token) : Except Error (List Token) :=
  match check_for_flags store with
  | .error e => .error e
  | .ok _ => .ok store

/-- `Arguments::subcommand`: remove and return the first token when it does
not look like a flag. -/
def subcommand (store : List Token) : Except Error (Option (List Char)) × List Token :=
  match store with
  | [] => (.ok none, store)
  | t :: rest =>
    match t with
    | .text s =>
      if starts_with_dash s then (.ok none, store)
      else (.ok (some s), rest)
    | .raw _ => (.error .nonUtf8Argument, rest)

/-- `Arguments::finish` (consumes the store). -/
def finish (store : List Token) : Except Error Unit :=
  if store.isEmpty then .ok ()
  else
    .error (.unusedArgsLeft (store.map (fun t =>
      match t with
      | .text s => s
      | .raw _ => S "binary data")))

/-- A decimal-digit decoder standing in for the integer `FromStr` used in the
spec's inline-quote examples: accepts a non-empty all-digit string. -/
def parse_nat (s : List Char) : Except (List Char) Nat :=
  if !s.isEmpty && s.all Char.isDigit then
    .ok (s.foldl (fun n c => n * 10 + (c.toNat - 48)) 0)
  else .error (S "invalid digit")

/-- Spec-level description of the repeated-extraction variant (spec §4.3):
the loop "calls the optional single-value extraction, collecting every match
into an ordered list, stopping at the first not-found, and propagating any
decode error immediately; an empty result list is not an error".  Stated as a
relation between the starting store and the (result, final store) pair;
`values_from_fn` is proved to inhabit it. -/
inductive ValuesFromSpec (keys : Keys) (f : List Char → Except (List Char) T) :
    List Token → Except Error (List T) × List Token → Prop where
  | stop {store store' : List Token} :
      opt_value_from_fn store keys f = (.ok none, store') →
      ValuesFromSpec keys f store (.ok [], store')
  | err {store store' : List Token} {e : Error} :
      opt_value_from_fn store keys f = (.error e, store') →
      ValuesFromSpec keys f store (.error e, store')
  | step {store store' st : List Token} {v : T} {r : Except Error (List T)} :
      opt_value_from_fn store keys f = (.ok (some v), store') →
      ValuesFromSpec keys f store' (r, st) →
      ValuesFromSpec keys f store (r.map (fun vs => v :: vs), st)

/-! ## Helper lemmas -/

theorem position_cons_pos {p : α → Bool} {x : α} (xs : List α) (hx : p x = true) :
    position p (x :: xs) = some 0 := by
  rw [position, if_pos hx]

theorem position_cons_neg {p : α → Bool} {x : α} (xs : List α) (hx : p x = false) :
    position p (x :: xs) = (position p xs).map (· + 1) := by
  rw [position, if_neg (by simp [hx])]

theorem position_lt {p : α → Bool} {l : List α} {i : Nat}
    (h : position p l = some i) : i < l.length := by
  induction l generalizing i with
  | nil => simp [position] at h
  | cons x xs ih =>
    by_cases hx : p x
    · rw [position_cons_pos xs hx] at h
      injection h with h
      subst h
      exact Nat.succ_pos xs.length
    · rw [position_cons_neg xs (Bool.eq_false_iff.mpr hx)] at h
      cases hp : position p xs with
      | none => rw [hp] at h; simp at h
      | some j =>
        rw [hp] at h
        injection h with h
        replace h : j + 1 = i := h
        subst h
        have := ih hp
        simp only [List.length_cons]
        omega

theorem position_get {p : α → Bool} {l : List α} {i : Nat}
    (h : position p l = some i) : ∃ x, l.get? i = some x ∧ p x = true := by
  induction l generalizing i with
  | nil => simp [position] at h
  | cons x xs ih =>
    by_cases hx : p x
    · rw [position_cons_pos xs hx] at h
      injection h with h
      subst h
      exact ⟨x, rfl, hx⟩
    · rw [position_cons_neg xs (Bool.eq_false_iff.mpr hx)] at h
      cases hp : position p xs with
      | none => rw [hp] at h; simp at h
      | some j =>
        rw [hp] at h
        injection h with h
        replace h : j + 1 = i := h
        subst h
        obtain ⟨y, hy, hpy⟩ := ih hp
        exact ⟨y, hy, hpy⟩

theorem position_min {p : α → Bool} {l : List α} {i : Nat}
    (h : position p l = some i) :
    ∀ j, j < i → ∀ y, l.get? j = some y → p y = false := by
  induction l generalizing i with
  | nil => simp [position] at h
  | cons x xs ih =>
    by_cases hx : p x
    · rw [position_cons_pos xs hx] at h
      injection h with h
      subst h
      intro j hj
      omega
    · rw [position_cons_neg xs (Bool.eq_false_iff.mpr hx)] at h
      cases hp : position p xs with
      | none => rw [hp] at h; simp at h
      | some k =>
        rw [hp] at h
        injection h with h
        replace h : k + 1 = i := h
        subst h
        intro j hj y hy
        cases j with
        | zero =>
          injection hy with hy
          subst hy
          exact Bool.eq_false_iff.mpr hx
        | succ j' =>
          exact ih hp j' (by omega) y hy

theorem position_eq_none_iff {p : α → Bool} {l : List α} :
    position p l = none ↔ ∀ x ∈ l, p x = false := by
  induction l with
  | nil => simp [position]
  | cons x xs ih =>
    by_cases hx : p x
    · rw [position_cons_pos xs hx]
      simp only [List.mem_cons]
      constructor
      · intro h; simp at h
      · intro h
        have := h x (Or.inl rfl)
        rw [hx] at this
        cases this
    · rw [position_cons_neg xs (Bool.eq_false_iff.mpr hx)]
      simp only [List.mem_cons]
      constructor
      · intro h
        have hn : position p xs = none := by
          cases hp : position p xs with
          | none => rfl
          | some j => rw [hp] at h; simp at h
        rintro y (rfl | hy)
        · exact Bool.eq_false_iff.mpr hx
        · exact ih.mp hn y hy
      · intro h
        have hn : position p xs = none :=
          ih.mpr (fun y hy => h y (Or.inr hy))
        rw [hn]
        rfl

theorem position_eq_some_of {p : α → Bool} {l : List α} {i : Nat} {x : α}
    (hget : l.get? i = some x) (hx : p x = true)
    (hmin : ∀ j, j < i → ∀ y, l.get? j = some y → p y = false) :
    position p l = some i := by
  induction l generalizing i with
  | nil => simp at hget
  | cons a as ih =>
    cases i with
    | zero =>
      cases hget
      simp [position, hx]
    | succ i' =>
      have ha : p a = false := hmin 0 (by omega) a rfl
      simp only [position, ha, Bool.false_eq_true, if_false]
      rw [ih hget (fun j hj y hy => hmin (j + 1) (by omega) y hy)]
      rfl

theorem key_search_lt {p : List Char → Token → Bool} {store : List Token} :
    ∀ {ks : List (List Char)} {i : Nat} {k : List Char},
      key_search p store ks = some (i, k) → i < store.length := by
  intro ks
  induction ks with
  | nil => intro i k h; simp [key_search] at h
  | cons a as ih =>
    intro i k h
    rw [key_search] at h
    split at h
    · exact ih h
    · cases hp : position (p a) store with
      | none => rw [hp] at h; exact ih h
      | some j =>
        rw [hp] at h
        simp only [Option.some.injEq, Prod.mk.injEq] at h
        obtain ⟨rfl, rfl⟩ := h
        exact position_lt hp

theorem index_of_lt {store : List Token} {keys : Keys} {i : Nat} {k : List Char}
    (h : index_of store keys = some (i, k)) : i < store.length :=
  key_search_lt h

theorem index_of2_lt {store : List Token} {keys : Keys} {i : Nat} {k : List Char}
    (h : index_of2 store keys = some (i, k)) : i < store.length :=
  key_search_lt h

/-- Index bounds carried by a successful `find_value`: the matched index is in
range, and in the two-token form the value index is in range as well. -/
theorem find_value_some_bounds {store : List Token} {keys : Keys}
    {value : List Char} {kind : PairKind} {idx : Nat}
    (h : find_value store keys = .ok (some (value, kind, idx))) :
    idx < store.length ∧ (kind = PairKind.twoArguments → idx + 1 < store.length) := by
  unfold find_value at h
  cases hio : index_of store keys with
  | some ik =>
    obtain ⟨i, k⟩ := ik
    rw [hio] at h
    dsimp only at h
    cases hg : store.get? (i + 1) with
    | none => rw [hg] at h; simp at h
    | some v =>
      rw [hg] at h
      cases v with
      | text s =>
        simp only [os_to_str, Except.ok.injEq, Option.some.injEq, Prod.mk.injEq] at h
        obtain ⟨rfl, rfl, rfl⟩ := h
        have hlt : i + 1 < store.length := (List.get?_eq_some.mp hg).1
        exact ⟨by omega, fun _ => hlt⟩
      | raw b => simp [os_to_str] at h
  | none =>
    rw [hio] at h
    dsimp only at h
    cases hio2 : index_of2 store keys with
    | some ik =>
      obtain ⟨i, k⟩ := ik
      rw [hio2] at h
      dsimp only at h
      cases hg : store.get? i with
      | none => rw [hg] at h; simp at h
      | some v =>
        rw [hg] at h
        cases v with
        | text s =>
          dsimp only at h
          cases hiv : inline_value s k with
          | ok w =>
            rw [hiv] at h
            simp only [Except.ok.injEq, Option.some.injEq, Prod.mk.injEq] at h
            obtain ⟨rfl, rfl, rfl⟩ := h
            exact ⟨(List.get?_eq_some.mp hg).1, fun hk => PairKind.noConfusion hk⟩
          | error e => rw [hiv] at h; simp at h
        | raw b => simp at h
    | none => rw [hio2] at h; simp at h

/-- A successful optional extraction strictly shrinks the store
(`values_from_fn` termination hinges on this). -/
theorem opt_value_from_fn_shrinks {T : Type _} {store store' : List Token}
    {keys : Keys} {f : List Char → Except (List Char) T} {v : T}
    (h : opt_value_from_fn store keys f = (.ok (some v), store')) :
    store'.length < store.length := by
  unfold opt_value_from_fn at h
  cases hfv : find_value store keys with
  | error e => rw [hfv] at h; simp at h
  | ok o =>
    cases o with
    | none => rw [hfv] at h; simp at h
    | some tpl =>
      obtain ⟨value, kind, idx⟩ := tpl
      rw [hfv] at h
      dsimp only at h
      have hb := find_value_some_bounds hfv
      cases hf : f value with
      | error e => rw [hf] at h; simp at h
      | ok w =>
        rw [hf] at h
        cases kind with
        | twoArguments =>
          simp only [Prod.mk.injEq] at h
          obtain ⟨-, rfl⟩ := h
          have h2 : idx + 1 < store.length := hb.2 rfl
          rw [List.length_eraseIdx, List.length_eraseIdx]
          have h1 : idx < store.length := hb.1
          simp only [h1, if_true]
          have hlt : idx < store.length - 1 := by omega
          simp only [hlt, if_true]
          omega
        | singleArgument =>
          simp only [Prod.mk.injEq] at h
          obtain ⟨-, rfl⟩ := h
          rw [List.length_eraseIdx]
          have h1 : idx < store.length := hb.1
          simp only [h1, if_true]
          omega

/-- Same shrinking property for the `OsStr` variant. -/
theorem opt_value_from_os_str_shrinks {T : Type _} {store store' : List Token}
    {keys : Keys} {g : Token → Except (List Char) T} {v : T}
    (h : opt_value_from_os_str store keys g = (.ok (some v), store')) :
    store'.length < store.length := by
  unfold opt_value_from_os_str at h
  cases hio : index_of store keys with
  | none => rw [hio] at h; simp at h
  | some ik =>
    obtain ⟨i, k⟩ := ik
    rw [hio] at h
    dsimp only at h
    cases hg : store.get? (i + 1) with
    | none => rw [hg] at h; simp at h
    | some w =>
      rw [hg] at h
      dsimp only at h
      cases hgw : g w with
      | error e => rw [hgw] at h; simp at h
      | ok u =>
        rw [hgw] at h
        simp only [Prod.mk.injEq] at h
        obtain ⟨-, rfl⟩ := h
        have h2 : i + 1 < store.length := (List.get?_eq_some.mp hg).1
        rw [List.length_eraseIdx, List.length_eraseIdx]
        have h1 : i < store.length := by omega
        simp only [h1, if_true]
        have hlt : i < store.length - 1 := by omega
        simp only [hlt, if_true]
        omega

theorem key_search_nil {p : List Char → Token → Bool} :
    ∀ ks : List (List Char), key_search p [] ks = none := by
  intro ks
  induction ks with
  | nil => rfl
  | cons a as ih =>
    rw [key_search]
    split
    · exact ih
    · simp only [position]
      exact ih

theorem opt_value_from_fn_nil {T : Type _} {keys : Keys}
    {f : List Char → Except (List Char) T} :
    opt_value_from_fn [] keys f = (.ok none, []) := by
  simp [opt_value_from_fn, find_value, index_of, index_of2, key_search_nil]

theorem opt_value_from_os_str_nil {T : Type _} {keys : Keys}
    {g : Token → Except (List Char) T} :
    opt_value_from_os_str [] keys g = (.ok none, []) := by
  simp [opt_value_from_os_str, index_of, key_search_nil]

/-- The loop body commits to an answer after at most `store.length`
successful iterations: any two fuel amounts above the store size give the
same result. -/
theorem values_loop_fuel_invariant {T : Type _} {keys : Keys}
    {f : List Char → Except (List Char) T} :
    ∀ (n : Nat) (store : List Token), store.length ≤ n →
      ∀ (fuel₁ fuel₂ : Nat) (acc : List T),
        store.length < fuel₁ → store.length < fuel₂ →
        values_loop keys f fuel₁ store acc = values_loop keys f fuel₂ store acc := by
  intro n
  induction n with
  | zero =>
    intro store hlen fuel₁ fuel₂ acc h1 h2
    have hstore : store = [] := List.length_eq_zero.mp (by omega)
    subst hstore
    obtain ⟨m1, rfl⟩ : ∃ m, fuel₁ = m + 1 := ⟨fuel₁ - 1, by omega⟩
    obtain ⟨m2, rfl⟩ : ∃ m, fuel₂ = m + 1 := ⟨fuel₂ - 1, by omega⟩
    rw [values_loop, values_loop, opt_value_from_fn_nil]
  | succ n ih =>
    intro store hlen fuel₁ fuel₂ acc h1 h2
    obtain ⟨m1, rfl⟩ : ∃ m, fuel₁ = m + 1 := ⟨fuel₁ - 1, by omega⟩
    obtain ⟨m2, rfl⟩ : ∃ m, fuel₂ = m + 1 := ⟨fuel₂ - 1, by omega⟩
    rw [values_loop, values_loop]
    cases hopt : opt_value_from_fn store keys f with
    | mk r store' =>
      cases r with
      | ok o =>
        cases o with
        | some v =>
          have hd := opt_value_from_fn_shrinks hopt
          exact ih store' (by omega) m1 m2 (acc ++ [v]) (by omega) (by omega)
        | none => rfl
      | error e => rfl

/-- Fuel invariance for the `OsStr` loop. -/
theorem values_os_loop_fuel_invariant {T : Type _} {keys : Keys}
    {g : Token → Except (List Char) T} :
    ∀ (n : Nat) (store : List Token), store.length ≤ n →
      ∀ (fuel₁ fuel₂ : Nat) (acc : List T),
        store.length < fuel₁ → store.length < fuel₂ →
        values_os_loop keys g fuel₁ store acc = values_os_loop keys g fuel₂ store acc := by
  intro n
  induction n with
  | zero =>
    intro store hlen fuel₁ fuel₂ acc h1 h2
    have hstore : store = [] := List.length_eq_zero.mp (by omega)
    subst hstore
    obtain ⟨m1, rfl⟩ : ∃ m, fuel₁ = m + 1 := ⟨fuel₁ - 1, by omega⟩
    obtain ⟨m2, rfl⟩ : ∃ m, fuel₂ = m + 1 := ⟨fuel₂ - 1, by omega⟩
    rw [values_os_loop, values_os_loop, opt_value_from_os_str_nil]
  | succ n ih =>
    intro store hlen fuel₁ fuel₂ acc h1 h2
    obtain ⟨m1, rfl⟩ : ∃ m, fuel₁ = m + 1 := ⟨fuel₁ - 1, by omega⟩
    obtain ⟨m2, rfl⟩ : ∃ m, fuel₂ = m + 1 := ⟨fuel₂ - 1, by omega⟩
    rw [values_os_loop, values_os_loop]
    cases hopt : opt_value_from_os_str store keys g with
    | mk r store' =>
      cases r with
      | ok o =>
        cases o with
        | some v =>
          have hd := opt_value_from_os_str_shrinks hopt
          exact ih store' (by omega) m1 m2 (acc ++ [v]) (by omega) (by omega)
        | none => rfl
      | error e => rfl

/-- The accumulator of `values_loop` is just prepended to the collected
values: the loop appends each new value on the right (`Vec::push`). -/
theorem values_loop_acc {T : Type _} {keys : Keys}
    {f : List Char → Except (List Char) T} :
    ∀ (fuel : Nat) (store : List Token) (acc : List T),
      values_loop keys f fuel store acc =
        ((values_loop keys f fuel store []).1.map (fun vs => acc ++ vs),
         (values_loop keys f fuel store []).2) := by
  intro fuel
  induction fuel with
  | zero => intro store acc; simp [values_loop, Except.map]
  | succ fuel ih =>
    intro store acc
    simp only [values_loop]
    cases hopt : opt_value_from_fn store keys f with
    | mk r store' =>
      cases r with
      | ok o =>
        cases o with
        | some v =>
          dsimp only
          rw [ih store' (acc ++ [v]), ih store' ([] ++ [v])]
          cases (values_loop keys f fuel store' []).1 with
          | ok vs => simp [Except.map]
          | error e => simp [Except.map]
        | none => simp [Except.map]
      | error e => simp [Except.map]

theorem opt_value_from_fn_sublist {T : Type _} (store : List Token) (keys : Keys)
    (f : List Char → Except (List Char) T) :
    List.Sublist (opt_value_from_fn store keys f).2 store := by
  unfold opt_value_from_fn
  cases hfv : find_value store keys with
  | error e => exact List.Sublist.refl store
  | ok o =>
    cases o with
    | none => exact List.Sublist.refl store
    | some tpl =>
      obtain ⟨value, kind, idx⟩ := tpl
      dsimp only
      cases hf : f value with
      | error e => exact List.Sublist.refl store
      | ok w =>
        cases kind with
        | twoArguments =>
          exact (List.eraseIdx_sublist _ idx).trans (List.eraseIdx_sublist store idx)
        | singleArgument => exact List.eraseIdx_sublist store idx

theorem opt_value_from_os_str_sublist {T : Type _} (store : List Token) (keys : Keys)
    (g : Token → Except (List Char) T) :
    List.Sublist (opt_value_from_os_str store keys g).2 store := by
  unfold opt_value_from_os_str
  cases hio : index_of store keys with
  | none => exact List.Sublist.refl store
  | some ik =>
    obtain ⟨i, k⟩ := ik
    dsimp only
    cases hg : store.get? (i + 1) with
    | none => exact List.Sublist.refl store
    | some w =>
      dsimp only
      cases hgw : g w with
      | error e => exact List.Sublist.refl store
      | ok u =>
        exact (List.eraseIdx_sublist _ i).trans (List.eraseIdx_sublist store i)

theorem values_loop_sublist {T : Type _} (keys : Keys)
    (f : List Char → Except (List Char) T) :
    ∀ (fuel : Nat) (store : List Token) (acc : List T),
      List.Sublist (values_loop keys f fuel store acc).2 store := by
  intro fuel
  induction fuel with
  | zero => intro store acc; exact List.Sublist.refl store
  | succ fuel ih =>
    intro store acc
    rw [values_loop]
    cases hopt : opt_value_from_fn store keys f with
    | mk r store' =>
      have hsub : List.Sublist store' store := by
        have hx := opt_value_from_fn_sublist store keys f
        rw [hopt] at hx
        exact hx
      cases r with
      | ok o =>
        cases o with
        | some v => exact (ih store' (acc ++ [v])).trans hsub
        | none => exact hsub
      | error e => exact hsub

theorem values_os_loop_sublist {T : Type _} (keys : Keys)
    (g : Token → Except (List Char) T) :
    ∀ (fuel : Nat) (store : List Token) (acc : List T),
      List.Sublist (values_os_loop keys g fuel store acc).2 store := by
  intro fuel
  induction fuel with
  | zero => intro store acc; exact List.Sublist.refl store
  | succ fuel ih =>
    intro store acc
    rw [values_os_loop]
    cases hopt : opt_value_from_os_str store keys g with
    | mk r store' =>
      have hsub : List.Sublist store' store := by
        have hx := opt_value_from_os_str_sublist store keys g
        rw [hopt] at hx
        exact hx
      cases r with
      | ok o =>
        cases o with
        | some v => exact (ih store' (acc ++ [v])).trans hsub
        | none => exact hsub
      | error e => exact hsub

/-! ## Claim theorems -/

/-- **C1.** For every store, key specification, and decode function: when the
extraction finds a matching option but the decode function fails, both
`opt_value_from_fn` and `value_from_fn` return the decode error and leave the
store completely unchanged (neither key nor value token is removed); when
decoding succeeds, exactly two tokens (positions `idx` and `idx + 1`) are
removed in the two-token form, and exactly one token (position `idx`) in the
inline `=` form. -/
theorem claim_C1_decode_outcome_store_semantics {T : Type _} (store : List Token)
    (keys : Keys) (f : List Char → Except (List Char) T)
    (value : List Char) (kind : PairKind) (idx : Nat)
    (h : find_value store keys = .ok (some (value, kind, idx))) :
    (∀ e, f value = .error e →
      opt_value_from_fn store keys f
          = (.error (.utf8ArgumentParsingFailed value e), store) ∧
      value_from_fn store keys f
          = (.error (.utf8ArgumentParsingFailed value e), store)) ∧
    (∀ v, f value = .ok v →
      (opt_value_from_fn store keys f).1 = .ok (some v) ∧
      (kind = PairKind.twoArguments →
        (opt_value_from_fn store keys f).2
            = store.take idx ++ store.drop (idx + 2) ∧
        (opt_value_from_fn store keys f).2.length + 2 = store.length) ∧
      (kind = PairKind.singleArgument →
        (opt_value_from_fn store keys f).2
            = store.take idx ++ store.drop (idx + 1) ∧
        (opt_value_from_fn store keys f).2.length + 1 = store.length)) := by
  have hb := find_value_some_bounds h
  have h1 : idx < store.length := hb.1
  constructor
  · intro e hfe
    have hopt : opt_value_from_fn store keys f
        = (.error (.utf8ArgumentParsingFailed value e), store) := by
      unfold opt_value_from_fn
      rw [h]
      dsimp only
      rw [hfe]
    refine ⟨hopt, ?_⟩
    unfold value_from_fn
    rw [hopt]
  · intro v hfv
    cases kind with
    | twoArguments =>
      have h2 : idx + 1 < store.length := hb.2 rfl
      have hopt : opt_value_from_fn store keys f
          = (.ok (some v), (store.eraseIdx idx).eraseIdx idx) := by
        unfold opt_value_from_fn
        rw [h]
        dsimp only
        rw [hfv]
      have hted : (store.eraseIdx idx).eraseIdx idx
          = store.take idx ++ store.drop (idx + 2) := by
        rw [List.eraseIdx_eq_take_drop_succ store idx,
            List.eraseIdx_eq_take_drop_succ]
        have hta : (store.take idx).length = idx := by
          rw [List.length_take]
          omega
        rw [List.take_left' hta]
        have hd : (store.take idx ++ store.drop (idx + 1)).drop (idx + 1)
            = (store.drop (idx + 1)).drop 1 := by
          have := @List.drop_append _ (store.take idx) (store.drop (idx + 1)) 1
          rw [hta] at this
          exact this
        rw [hd, List.drop_drop]
      have hlen : ((store.eraseIdx idx).eraseIdx idx).length + 2 = store.length := by
        rw [List.length_eraseIdx, List.length_eraseIdx]
        simp only [h1, if_true]
        have hlt : idx < store.length - 1 := by omega
        simp only [hlt, if_true]
        omega
      refine ⟨by rw [hopt], fun _ => ⟨?_, ?_⟩, fun hk => PairKind.noConfusion hk⟩
      · rw [hopt]
        exact hted
      · rw [hopt]
        exact hlen
    | singleArgument =>
      have hopt : opt_value_from_fn store keys f
          = (.ok (some v), store.eraseIdx idx) := by
        unfold opt_value_from_fn
        rw [h]
        dsimp only
        rw [hfv]
      refine ⟨by rw [hopt], fun hk => PairKind.noConfusion hk, fun _ => ⟨?_, ?_⟩⟩
      · rw [hopt]
        exact List.eraseIdx_eq_take_drop_succ store idx
      · rw [hopt]
        rw [List.length_eraseIdx]
        simp only [h1, if_true]
        omega

/-- Witness for C1 at a concrete input: store `["-w", "abc"]`, keys
`-w` and `--width`, digit decoder; the decode fails and the store is untouched. -/
theorem claim_C1_witness :
    find_value [Token.text (S "-w"), Token.text (S "abc")] ⟨S "-w", S "--width"⟩
        = .ok (some (S "abc", .twoArguments, 0)) ∧
    parse_nat (S "abc") = .error (S "invalid digit") ∧
    opt_value_from_fn [Token.text (S "-w"), Token.text (S "abc")]
        ⟨S "-w", S "--width"⟩ parse_nat
        = (.error (.utf8ArgumentParsingFailed (S "abc") (S "invalid digit")),
           [Token.text (S "-w"), Token.text (S "abc")]) := by
  refine ⟨by decide, by decide, ?_⟩
  exact (((claim_C1_decode_outcome_store_semantics
      [Token.text (S "-w"), Token.text (S "abc")] ⟨S "-w", S "--width"⟩ parse_nat
      (S "abc") .twoArguments 0 (by decide)).1 (S "invalid digit") (by decide)).1)

/-- **C2.** Inline `=` form with an integer-like decode: `-w='10'`,
`-w="10"`, and `-w=10` all decode to `10` with the single matched token
removed; each of `-w=`, `-w='`, `-w=''`, `-w='"`, and `-w='10"` yields the
"option without a value" error and removes nothing. -/
theorem claim_C2_inline_quote_stripping :
    opt_value_from_fn [Token.text (S "-w='10'")] ⟨S "-w", []⟩ parse_nat
        = (.ok (some 10), []) ∧
    opt_value_from_fn [Token.text (S "-w=\"10\"")] ⟨S "-w", []⟩ parse_nat
        = (.ok (some 10), []) ∧
    opt_value_from_fn [Token.text (S "-w=10")] ⟨S "-w", []⟩ parse_nat
        = (.ok (some 10), []) ∧
    opt_value_from_fn [Token.text (S "-w=")] ⟨S "-w", []⟩ parse_nat
        = (.error (.optionWithoutAValue (S "-w")), [Token.text (S "-w=")]) ∧
    opt_value_from_fn [Token.text (S "-w='")] ⟨S "-w", []⟩ parse_nat
        = (.error (.optionWithoutAValue (S "-w")), [Token.text (S "-w='")]) ∧
    opt_value_from_fn [Token.text (S "-w=''")] ⟨S "-w", []⟩ parse_nat
        = (.error (.optionWithoutAValue (S "-w")), [Token.text (S "-w=''")]) ∧
    opt_value_from_fn [Token.text (S "-w='\"")] ⟨S "-w", []⟩ parse_nat
        = (.error (.optionWithoutAValue (S "-w")), [Token.text (S "-w='\"")]) ∧
    opt_value_from_fn [Token.text (S "-w='10\"")] ⟨S "-w", []⟩ parse_nat
        = (.error (.optionWithoutAValue (S "-w")), [Token.text (S "-w='10\"")]) := by
  refine ⟨?_, ?_, ?_, ?_, ?_, ?_, ?_, ?_⟩ <;> decide

/-- **C3.** The exact-token (two-token) search over both aliases is always
completed over the whole store before any inline `--key=value` prefix search
begins: once `index_of` matches, `find_value` is entirely determined by the
two-token branch; in particular when the matched alias is the last token,
the call fails with "option present without a following value" without
removing the token and without falling back to the inline form. -/
theorem claim_C3_two_token_precedence {T : Type _} (store : List Token)
    (keys : Keys) (idx : Nat) (key : List Char)
    (h : index_of store keys = some (idx, key)) :
    (∀ v, store.get? (idx + 1) = some v →
      find_value store keys
        = (match os_to_str v with
           | .ok value => .ok (some (value, .twoArguments, idx))
           | .error e => .error e)) ∧
    (store.get? (idx + 1) = none →
      find_value store keys = .error (.optionWithoutAValue key) ∧
      ∀ f : List Char → Except (List Char) T,
        opt_value_from_fn store keys f
          = (.error (.optionWithoutAValue key), store)) := by
  constructor
  · intro v hv
    unfold find_value
    rw [h]
    dsimp only
    rw [hv]
  · intro hnone
    have hfv : find_value store keys = .error (.optionWithoutAValue key) := by
      unfold find_value
      rw [h]
      dsimp only
      rw [hnone]
    refine ⟨hfv, fun f => ?_⟩
    unfold opt_value_from_fn
    rw [hfv]

/-- Witness for C3: in `["-w=5", "-w"]` the alias `-w` matches exactly at the
last position, so the call errors with the store unchanged even though an
inline `-w=5` match exists earlier. -/
theorem claim_C3_witness :
    index_of [Token.text (S "-w=5"), Token.text (S "-w")] ⟨S "-w", []⟩
        = some (1, S "-w") ∧
    [Token.text (S "-w=5"), Token.text (S "-w")].get? 2 = none ∧
    opt_value_from_fn [Token.text (S "-w=5"), Token.text (S "-w")]
        ⟨S "-w", []⟩ parse_nat
        = (.error (.optionWithoutAValue (S "-w")),
           [Token.text (S "-w=5"), Token.text (S "-w")]) := by
  refine ⟨by decide, by decide, ?_⟩
  exact ((claim_C3_two_token_precedence
      [Token.text (S "-w=5"), Token.text (S "-w")] ⟨S "-w", []⟩ 1 (S "-w")
      (by decide)).2 (by decide)).2 parse_nat

/-- **C5.** When the flag-residue check passes, the first token is valid
text, and the decoder fails in `free_from_fn`, the error reports the failing
text together with the cause, and the first token has nonetheless been
removed from the store. -/
theorem claim_C5_free_decode_failure_removes_token {T : Type _}
    (store rest : List Token) (s : List Char)
    (f : List Char → Except (List Char) T) (e : List Char)
    (hc : check_for_flags store = .ok ())
    (hs : store = Token.text s :: rest)
    (hf : f s = .error e) :
    free_from_fn store f = (.error (.utf8ArgumentParsingFailed s e), rest) := by
  subst hs
  unfold free_from_fn
  rw [hc]
  dsimp only [os_to_str]
  rw [hf]

/-- Witness for C5: `["abc"]` with the digit decoder. -/
theorem claim_C5_witness :
    check_for_flags [Token.text (S "abc")] = .ok () ∧
    parse_nat (S "abc") = .error (S "invalid digit") ∧
    free_from_fn [Token.text (S "abc")] parse_nat
        = (.error (.utf8ArgumentParsingFailed (S "abc") (S "invalid digit")),
           []) := by
  refine ⟨by decide, by decide, ?_⟩
  exact claim_C5_free_decode_failure_removes_token [Token.text (S "abc")] []
      (S "abc") parse_nat (S "invalid digit") (by decide) rfl (by decide)

/-- **C10.** When the flag-residue check passes and the first remaining
token is not valid UTF-8 text, `free_from_fn` returns the non-text-argument
error and that first token has already been removed from the store. -/
theorem claim_C10_nonutf8_first_token_removed {T : Type _}
    (store rest : List Token) (b : Nat)
    (f : List Char → Except (List Char) T)
    (hc : check_for_flags store = .ok ())
    (hs : store = Token.raw b :: rest) :
    free_from_fn store f = (.error .nonUtf8Argument, rest) := by
  subst hs
  unfold free_from_fn
  rw [hc]
  rfl

/-- Witness for C10: a raw (non-UTF-8) token followed by `"x"`. -/
theorem claim_C10_witness :
    check_for_flags [Token.raw 0, Token.text (S "x")] = .ok () ∧
    free_from_fn [Token.raw 0, Token.text (S "x")] parse_nat
        = (.error .nonUtf8Argument, [Token.text (S "x")]) := by
  refine ⟨by decide, ?_⟩
  exact claim_C10_nonutf8_first_token_removed [Token.raw 0, Token.text (S "x")]
      [Token.text (S "x")] 0 parse_nat (by decide) rfl

theorem eqStr_eq_true_iff {t : Token} {k : List Char} :
    Token.eqStr t k = true ↔ t = Token.text k := by
  cases t with
  | text s => simp [Token.eqStr]
  | raw b => simp [Token.eqStr]

theorem position_eqStr_none_iff {store : List Token} {k : List Char} :
    position (fun v => v.eqStr k) store = none ↔ Token.text k ∉ store := by
  rw [position_eq_none_iff]
  constructor
  · intro h hmem
    have hx := h _ hmem
    simp [Token.eqStr] at hx
  · intro hmem x hx
    by_cases hxk : x = Token.text k
    · subst hxk
      exact absurd hx hmem
    · rw [← Bool.not_eq_true]
      intro hc
      exact hxk (eqStr_eq_true_iff.mp hc)

/-- Unfolding of the alias loop for two non-empty aliases. -/
theorem key_search_two {p : List Char → Token → Bool} {store : List Token}
    {k1 k2 : List Char} (h1 : k1 ≠ []) (h2 : k2 ≠ []) :
    key_search p store [k1, k2] =
      match position (p k1) store with
      | some i => some (i, k1)
      | none =>
        match position (p k2) store with
        | some i => some (i, k2)
        | none => none := by
  have e1 : k1.isEmpty = false := by cases k1 with
    | nil => exact absurd rfl h1
    | cons a as => rfl
  have e2 : k2.isEmpty = false := by cases k2 with
    | nil => exact absurd rfl h2
    | cons a as => rfl
  simp only [key_search, e1, e2, Bool.false_eq_true, if_false]

/-- **C4.** For all non-empty flag aliases `k1`, `k2` and every token list:
`contains` returns true iff the list holds a token exactly equal to `k1` or
`k2`; in that case it removes exactly one such token — the first match of
`k1` by position over the whole store, and only if `k1` has no match, the
first match of `k2`; when it returns false the store is unchanged. -/
theorem claim_C4_contains_semantics (store : List Token) (k1 k2 : List Char)
    (h1 : k1 ≠ []) (h2 : k2 ≠ []) :
    ((contains_impl store ⟨k1, k2⟩).1 = true ↔
      Token.text k1 ∈ store ∨ Token.text k2 ∈ store) ∧
    ((contains_impl store ⟨k1, k2⟩).1 = false →
      (contains_impl store ⟨k1, k2⟩).2 = store) ∧
    (∀ i, store.get? i = some (Token.text k1) →
      (∀ j, j < i → store.get? j ≠ some (Token.text k1)) →
      (contains_impl store ⟨k1, k2⟩).2 = store.eraseIdx i) ∧
    (Token.text k1 ∉ store →
      ∀ i, store.get? i = some (Token.text k2) →
        (∀ j, j < i → store.get? j ≠ some (Token.text k2)) →
        (contains_impl store ⟨k1, k2⟩).2 = store.eraseIdx i) := by
  have hks := @key_search_two (fun k v => v.eqStr k) store k1 k2 h1 h2
  cases hp1 : position (fun v => v.eqStr k1) store with
  | some i1 =>
    have hget1 : store.get? i1 = some (Token.text k1) := by
      obtain ⟨x, hx, hpx⟩ := position_get hp1
      rw [eqStr_eq_true_iff.mp hpx] at hx
      exact hx
    have hmem1 : Token.text k1 ∈ store := List.get?_mem hget1
    have hio : index_of store ⟨k1, k2⟩ = some (i1, k1) := by
      show key_search _ store [k1, k2] = _
      rw [hks, hp1]
    have hc : contains_impl store ⟨k1, k2⟩ = (true, store.eraseIdx i1) := by
      unfold contains_impl
      rw [hio]
    refine ⟨?_, ?_, ?_, ?_⟩
    · rw [hc]
      exact ⟨fun _ => Or.inl hmem1, fun _ => rfl⟩
    · rw [hc]
      intro hf
      cases hf
    · intro i hgi hmini
      have hii : i = i1 := by
        by_contra hne
        rcases Nat.lt_or_ge i i1 with hlt | hge
        · have := position_min hp1 i hlt _ hgi
          simp [Token.eqStr] at this
        · have hlt1 : i1 < i := by omega
          exact (hmini i1 hlt1) hget1
      subst hii
      rw [hc]
    · intro hnot
      exact absurd hmem1 hnot
  | none =>
    have hn1 : Token.text k1 ∉ store := position_eqStr_none_iff.mp hp1
    cases hp2 : position (fun v => v.eqStr k2) store with
    | some i2 =>
      have hget2 : store.get? i2 = some (Token.text k2) := by
        obtain ⟨x, hx, hpx⟩ := position_get hp2
        rw [eqStr_eq_true_iff.mp hpx] at hx
        exact hx
      have hmem2 : Token.text k2 ∈ store := List.get?_mem hget2
      have hio : index_of store ⟨k1, k2⟩ = some (i2, k2) := by
        show key_search _ store [k1, k2] = _
        rw [hks, hp1, hp2]
      have hc : contains_impl store ⟨k1, k2⟩ = (true, store.eraseIdx i2) := by
        unfold contains_impl
        rw [hio]
      refine ⟨?_, ?_, ?_, ?_⟩
      · rw [hc]
        exact ⟨fun _ => Or.inr hmem2, fun _ => rfl⟩
      · rw [hc]
        intro hf
        cases hf
      · intro i hgi hmini
        exact absurd (List.get?_mem hgi) hn1
      · intro hnot i hgi hmini
        have hii : i = i2 := by
          by_contra hne
          rcases Nat.lt_or_ge i i2 with hlt | hge
          · have := position_min hp2 i hlt _ hgi
            simp [Token.eqStr] at this
          · have hlt2 : i2 < i := by omega
            exact (hmini i2 hlt2) hget2
        subst hii
        rw [hc]
    | none =>
      have hn2 : Token.text k2 ∉ store := position_eqStr_none_iff.mp hp2
      have hio : index_of store ⟨k1, k2⟩ = none := by
        show key_search _ store [k1, k2] = _
        rw [hks, hp1, hp2]
      have hc : contains_impl store ⟨k1, k2⟩ = (false, store) := by
        unfold contains_impl
        rw [hio]
      refine ⟨?_, ?_, ?_, ?_⟩
      · rw [hc]
        constructor
        · intro hf
          cases hf
        · rintro (hm | hm)
          · exact absurd hm hn1
          · exact absurd hm hn2
      · rw [hc]
        intro
        rfl
      · intro i hgi hmini
        exact absurd (List.get?_mem hgi) hn1
      · intro hnot i hgi hmini
        exact absurd (List.get?_mem hgi) hn2

/-- Witness for C4: `["x", "-h"]` with aliases `-h`, `--help`: present, and
the single matching token at index 1 is removed. -/
theorem claim_C4_witness :
    (contains_impl [Token.text (S "x"), Token.text (S "-h")]
        ⟨S "-h", S "--help"⟩).1 = true ∧
    (contains_impl [Token.text (S "x"), Token.text (S "-h")]
        ⟨S "-h", S "--help"⟩).2 = [Token.text (S "x")] := by
  have h := claim_C4_contains_semantics
    [Token.text (S "x"), Token.text (S "-h")] (S "-h") (S "--help")
    (by decide) (by decide)
  constructor
  · exact h.1.mpr (Or.inl (by decide))
  · have he := h.2.2.1 1 (by decide)
      (fun j hj => by
        have hj0 : j = 0 := by omega
        subst hj0
        decide)
    rw [he]
    rfl

theorem flags_left_eq_filter (store : List Token) :
    flags_left store = (store.filterMap (fun t => match t with
      | Token.text s => some s
      | Token.raw _ => none)).filter
        (fun s => starts_with_dash s && s != ['-']) := by
  induction store with
  | nil => rfl
  | cons t rest ih =>
    cases t with
    | text s =>
      by_cases hcond : (starts_with_dash s && s != ['-']) = true
      · simp only [flags_left, hcond, if_true, List.filterMap_cons, List.filter_cons]
        rw [ih]
      · simp only [flags_left, hcond, List.filterMap_cons, List.filter_cons,
          Bool.false_eq_true, if_false]
        exact ih
    | raw b =>
      simp only [flags_left, List.filterMap_cons]
      exact ih

theorem flags_left_eq_nil_iff (store : List Token) :
    flags_left store = [] ↔
      ∀ s, Token.text s ∈ store → starts_with_dash s = true → s = ['-'] := by
  induction store with
  | nil => simp [flags_left]
  | cons t rest ih =>
    cases t with
    | text s =>
      by_cases hcond : (starts_with_dash s && s != ['-']) = true
      · simp only [flags_left, hcond, if_true]
        constructor
        · intro h
          cases h
        · intro h
          have hcondi : starts_with_dash s = true ∧ s ≠ ['-'] := by
            simpa using hcond
          have hs := h s (List.mem_cons_self _ _) hcondi.1
          exact absurd hs hcondi.2
      · simp only [flags_left, hcond, Bool.false_eq_true, if_false]
        rw [ih]
        constructor
        · intro h s' hmem hd
          rcases List.mem_cons.mp hmem with heq | hmem'
          · have hss : s' = s := by
              injection heq
            subst hss
            by_contra hne
            exact hcond (by simp [hd, hne])
          · exact h s' hmem' hd
        · intro h s' hmem hd
          exact h s' (List.mem_cons_of_mem _ hmem) hd
    | raw b =>
      simp only [flags_left]
      rw [ih]
      constructor
      · intro h s hmem hd
        rcases List.mem_cons.mp hmem with heq | hm
        · cases heq
        · exact h s hm hd
      · intro h s hm hd
        exact h s (List.mem_cons_of_mem _ hm) hd

theorem check_for_flags_ok_iff (store : List Token) :
    check_for_flags store = .ok () ↔ flags_left store = [] := by
  unfold check_for_flags
  by_cases hemp : (flags_left store).isEmpty = true
  · rw [if_pos hemp]
    simp [List.isEmpty_iff] at hemp
    simp [hemp]
  · rw [if_neg hemp]
    simp only [List.isEmpty_iff] at hemp
    constructor
    · intro h
      cases h
    · intro h
      exact absurd h hemp

theorem check_for_flags_error_eq {store : List Token} {e : Error}
    (h : check_for_flags store = .error e) :
    e = .unusedArgsLeft (flags_left store) := by
  unfold check_for_flags at h
  by_cases hemp : (flags_left store).isEmpty = true
  · rw [if_pos hemp] at h
    cases h
  · rw [if_neg hemp] at h
    injection h with h
    exact h.symm

theorem free_strings_of_map (l : List (List Char)) :
    free_strings (l.map Token.text) = .ok l := by
  induction l with
  | nil => rfl
  | cons s rest ih =>
    simp only [List.map_cons, free_strings, os_to_str]
    rw [ih]
    rfl

theorem free_strings_ok_eq {store : List Token} {l : List (List Char)}
    (h : free_strings store = .ok l) : store = l.map Token.text := by
  induction store generalizing l with
  | nil =>
    cases l with
    | nil => rfl
    | cons a as =>
      simp only [free_strings] at h
      cases h
  | cons t rest ih =>
    cases t with
    | text s =>
      simp only [free_strings, os_to_str] at h
      cases hfr : free_strings rest with
      | error e =>
        rw [hfr] at h
        simp only [Except.map] at h
        exact Except.noConfusion h
      | ok l' =>
        rw [hfr] at h
        simp only [Except.map] at h
        injection h with h
        subst h
        simp only [List.map_cons]
        rw [← ih hfr]
    | raw b =>
      simp only [free_strings, os_to_str] at h
      cases h

/-- **C6.** The flag-residue check succeeds iff no remaining text token
starts with a dash other than the literal `-`; any failure carries exactly
the offending token texts in store order; and a successful `free` returns
exactly the texts of the store(so the stdin sentinel `-` is always included
at its position). -/
theorem claim_C6_flag_residue_check (store : List Token) :
    (check_for_flags store = .ok () ↔
      ∀ s, Token.text s ∈ store → starts_with_dash s = true → s = ['-']) ∧
    (∀ e, check_for_flags store = .error e →
      e = .unusedArgsLeft ((store.filterMap (fun t => match t with
            | Token.text s => some s
            | Token.raw _ => none)).filter
          (fun s => starts_with_dash s && s != ['-']))) ∧
    (∀ l, free store = .ok l → store = l.map Token.text) := by
  refine ⟨?_, ?_, ?_⟩
  · rw [check_for_flags_ok_iff]
    exact flags_left_eq_nil_iff store
  · intro e he
    rw [check_for_flags_error_eq he, flags_left_eq_filter]
  · intro l hl
    unfold free at hl
    cases hcf : check_for_flags store with
    | error e =>
      rw [hcf] at hl
      cases hl
    | ok u =>
      rw [hcf] at hl
      exact free_strings_ok_eq hl

/-- Witness for C6: the store `["-", "a"]` passes the residue check and
`free` returns both tokens, the stdin sentinel `-` included. -/
theorem claim_C6_witness :
    [Token.text (S "-"), Token.text (S "a")] = ([S "-", S "a"]).map Token.text :=
  (claim_C6_flag_residue_check _).2.2 [S "-", S "a"] (by decide)

/-- **C7.** `values_from_fn` repeatedly applies the optional single-value
extraction, collecting every matched value in left-to-right extraction order,
stops at the first "not found" returning the collected list (an empty list is
not an error), and returns immediately with the error on the first decode or
value error — i.e. it inhabits the spec-level relation `ValuesFromSpec`. -/
theorem claim_C7_values_refines_spec {T : Type _} (store : List Token)
    (keys : Keys) (f : List Char → Except (List Char) T) :
    ValuesFromSpec keys f store (values_from_fn store keys f) := by
  suffices h : ∀ (n : Nat) (st : List Token), st.length ≤ n →
      ValuesFromSpec keys f st (values_from_fn st keys f) from
    h store.length store le_rfl
  intro n
  induction n with
  | zero =>
    intro st hlen
    have hst : st = [] := List.length_eq_zero.mp (by omega)
    subst hst
    have hv : values_from_fn [] keys f = (.ok [], []) := by
      unfold values_from_fn
      simp only [List.length_nil, values_loop, opt_value_from_fn_nil]
    rw [hv]
    exact ValuesFromSpec.stop opt_value_from_fn_nil
  | succ n ih =>
    intro st hlen
    cases hopt : opt_value_from_fn st keys f with
    | mk r st' =>
      cases r with
      | error e =>
        have hv : values_from_fn st keys f = (.error e, st') := by
          unfold values_from_fn
          rw [values_loop, hopt]
        rw [hv]
        exact ValuesFromSpec.err hopt
      | ok o =>
        cases o with
        | none =>
          have hv : values_from_fn st keys f = (.ok [], st') := by
            unfold values_from_fn
            rw [values_loop, hopt]
          rw [hv]
          exact ValuesFromSpec.stop hopt
        | some v =>
          have hlt := opt_value_from_fn_shrinks hopt
          have h1 : values_from_fn st keys f
              = values_loop keys f st.length st' [v] := by
            unfold values_from_fn
            rw [values_loop, hopt]
            rfl
          have h2 : values_loop keys f st.length st' [v]
              = values_loop keys f (st'.length + 1) st' [v] :=
            values_loop_fuel_invariant st'.length st' le_rfl
              st.length (st'.length + 1) [v] (by omega) (by omega)
          have h3 := @values_loop_acc _ keys f (st'.length + 1) st' [v]
          have hspec := ih st' (by omega)
          unfold values_from_fn at hspec
          rw [h1, h2, h3]
          cases hvv : values_loop keys f (st'.length + 1) st' [] with
          | mk r2 st2 =>
            rw [hvv] at hspec
            have hfun : (fun vs => [v] ++ vs) = (fun vs => v :: vs) := by
              funext vs
              rfl
            rw [hfun]
            exact ValuesFromSpec.step hopt hspec

/-- **C8.** Every extraction operation only removes tokens and never
inserts, replaces, or reorders them: after any call the surviving token
sequence is a sublist (order- and content-preserving subsequence) of the
original store. -/
theorem claim_C8_extractions_only_remove {T U : Type} (store : List Token)
    (keys : Keys) (f : List Char → Except (List Char) T)
    (g : Token → Except (List Char) U) :
    List.Sublist (contains_impl store keys).2 store ∧
    List.Sublist (subcommand store).2 store ∧
    List.Sublist (opt_value_from_fn store keys f).2 store ∧
    List.Sublist (value_from_fn store keys f).2 store ∧
    List.Sublist (values_from_fn store keys f).2 store ∧
    List.Sublist (opt_value_from_os_str store keys g).2 store ∧
    List.Sublist (values_from_os_str store keys g).2 store ∧
    List.Sublist (free_from_fn store f).2 store ∧
    List.Sublist (free_from_os_str store g).2 store := by
  refine ⟨?_, ?_, opt_value_from_fn_sublist store keys f, ?_,
    values_loop_sublist keys f _ store [],
    opt_value_from_os_str_sublist store keys g,
    values_os_loop_sublist keys g _ store [], ?_, ?_⟩
  · unfold contains_impl
    cases hio : index_of store keys with
    | some ik =>
      obtain ⟨i, k⟩ := ik
      exact List.eraseIdx_sublist store i
    | none => exact List.Sublist.refl store
  · unfold subcommand
    cases store with
    | nil => exact List.Sublist.refl []
    | cons t rest =>
      cases t with
      | text s =>
        by_cases hd : starts_with_dash s = true
        · simp only [hd, if_true]
          exact List.Sublist.refl _
        · simp only [hd, Bool.false_eq_true, if_false]
          exact List.sublist_cons_self _ _
      | raw b => exact List.sublist_cons_self _ _
  · unfold value_from_fn
    have hsub := opt_value_from_fn_sublist store keys f
    cases hopt : opt_value_from_fn store keys f with
    | mk r st =>
      rw [hopt] at hsub
      cases r with
      | ok o =>
        cases o with
        | some v => exact hsub
        | none => exact hsub
      | error e => exact hsub
  · unfold free_from_fn
    cases hc : check_for_flags store with
    | error e => exact List.Sublist.refl store
    | ok u =>
      cases store with
      | nil => exact List.Sublist.refl []
      | cons v rest =>
        dsimp only
        cases hos : os_to_str v with
        | error e => exact List.sublist_cons_self _ _
        | ok sv =>
          dsimp only
          cases hfs : f sv with
          | ok w => exact List.sublist_cons_self _ _
          | error e => exact List.sublist_cons_self _ _
  · unfold free_from_os_str
    cases hc : check_for_flags store with
    | error e => exact List.Sublist.refl store
    | ok u =>
      cases store with
      | nil => exact List.Sublist.refl []
      | cons v rest =>
        dsimp only
        cases hgv : g v with
        | ok w => exact List.sublist_cons_self _ _
        | error e => exact List.sublist_cons_self _ _

/-- **C9.** `values_from_fn` and `values_from_os_str` terminate: each
successful iteration removes at least one token (the store length strictly
decreases), so the loop result is already stable at fuel
`initial token count + 1` — any larger fuel gives the same outcome. -/
theorem claim_C9_values_terminate {T U : Type} :
    (∀ (store store' : List Token) (keys : Keys)
        (f : List Char → Except (List Char) T) (v : T),
      opt_value_from_fn store keys f = (.ok (some v), store') →
      store'.length < store.length) ∧
    (∀ (store store' : List Token) (keys : Keys)
        (g : Token → Except (List Char) U) (v : U),
      opt_value_from_os_str store keys g = (.ok (some v), store') →
      store'.length < store.length) ∧
    (∀ (store : List Token) (keys : Keys)
        (f : List Char → Except (List Char) T) (fuel : Nat) (acc : List T),
      store.length + 1 ≤ fuel →
      values_loop keys f fuel store acc
        = values_loop keys f (store.length + 1) store acc) ∧
    (∀ (store : List Token) (keys : Keys)
        (g : Token → Except (List Char) U) (fuel : Nat) (acc : List U),
      store.length + 1 ≤ fuel →
      values_os_loop keys g fuel store acc
        = values_os_loop keys g (store.length + 1) store acc) := by
  refine ⟨?_, ?_, ?_, ?_⟩
  · intro store store' keys f v h
    exact opt_value_from_fn_shrinks h
  · intro store store' keys g v h
    exact opt_value_from_os_str_shrinks h
  · intro store keys f fuel acc hfuel
    exact values_loop_fuel_invariant store.length store le_rfl
      fuel (store.length + 1) acc (by omega) (by omega)
  · intro store keys g fuel acc hfuel
    exact values_os_loop_fuel_invariant store.length store le_rfl
      fuel (store.length + 1) acc (by omega) (by omega)

/-- Witness for C9: one successful extraction on `["-w", "10"]` shrinks the
store from two tokens to zero. -/
theorem claim_C9_witness :
    opt_value_from_fn [Token.text (S "-w"), Token.text (S "10")]
        ⟨S "-w", []⟩ parse_nat = (.ok (some 10), []) ∧
    ([] : List Token).length
        < [Token.text (S "-w"), Token.text (S "10")].length := by
  refine ⟨by decide, ?_⟩
  exact (@claim_C9_values_terminate Nat Nat).1
    [Token.text (S "-w"), Token.text (S "10")] [] ⟨S "-w", []⟩ parse_nat 10
    (by decide)

end PicoArgs
